import Mathlib

/-!
Shallow embedding of the queue ordering and rebuild engine of the `og-media`
repository (`backend/app/services/queue_builder.py`, plus the player endpoint
`backend/app/routers/player.py`).

Modelling conventions:

* A Python video dictionary becomes the structure `Video`.  The dictionary is
  produced by the provider; `video.get("video_id")` is modelled by the field
  `video_id : Option String` (`none` = key absent, `some ""` = empty value,
  both falsy in Python).
* Timestamps: the code stores `published_at` as an ISO-8601 string and runs it
  through `_parse_published_at`, which uses the external `datetime` library
  (`datetime.fromisoformat`) and returns either a `datetime` in the range
  `datetime.min .. datetime.max` or `None` (missing or unparseable value).
  Naive `datetime` comparison is a total order, order-isomorphic to the number
  of microseconds elapsed since `datetime.min`; we therefore embed the result
  of the parse directly as `published_at : Option Nat` (microseconds since
  `datetime.min`, so `datetime.min = 0` and
  `datetime.max = datetimeMaxMicros`), with `none` for missing/unparseable.
* `random.shuffle` is modelled by an arbitrary function parameter; theorems
  assume only that it permutes its input, so they hold for every random
  outcome.  Likewise the per-round `random.shuffle(active_indexes)` inside the
  round robin is a parameter `shuffler : Nat -> List Nat -> List Nat` (round
  number, active indexes).
* Python's `sorted(l, key=k, reverse=r)` is a stable sort; with `reverse=True`
  elements are in non-increasing key order and ties keep their original
  relative order.  This is exactly `List.mergeSort` with the comparison
  `k b <= k a` (and `k a <= k b` for `reverse=False`).
* Python `set`s of strings are modelled as `List String` with membership.
-/

namespace OgMedia

/-- Microseconds from `datetime.min` (0001-01-01 00:00:00) to `datetime.max`
(9999-12-31 23:59:59.999999): 3652058 whole days plus the last partial day. -/
def datetimeMaxMicros : Nat := 3652058 * 86400000000 + 86399999999

/-- A provider video dictionary (see `youtube.py`: keys `video_id`,
`video_url`, `title`, `thumbnail_url`, `channel_name`, `published_at`).
`video_id` models `video.get("video_id")`; `published_at` holds the result of
`_parse_published_at` applied to the raw string (see module docstring). -/
structure Video where
  video_id : Option String
  video_url : String
  title : String
  thumbnail_url : String
  channel_name : String
  published_at : Option Nat
deriving DecidableEq, Repr

/-- Embeds `QueueBuilder._sort_key_for_date`: a parsed timestamp is returned
as-is (every `datetime` is truthy in Python, so `if parsed:` succeeds for any
parse result), an unknown timestamp becomes `datetime.min` when sorting
newest-first and `datetime.max` otherwise. -/
def _sort_key_for_date (value : Option Nat) (newest_first : Bool) : Nat :=
  match value with
  | some parsed => parsed
  | none => if newest_first then 0 else datetimeMaxMicros

/-- The comparison `sorted(videos, key=..., reverse=newest_first)` performs:
stable non-increasing key order when `newest_first`, stable non-decreasing
key order otherwise. -/
def dateLE (newest_first : Bool) (a b : Video) : Bool :=
  if newest_first then
    _sort_key_for_date b.published_at newest_first ≤
      _sort_key_for_date a.published_at newest_first
  else
    _sort_key_for_date a.published_at newest_first ≤
      _sort_key_for_date b.published_at newest_first

/-- One source's `sorted(videos, key=lambda v: self._sort_key_for_date(...),
reverse=newest_first)` from `_build_round_robin_by_date`. -/
def sortVideosByDate (newest_first : Bool) (videos : List Video) : List Video :=
  videos.mergeSort (dateLE newest_first)

/-- Worker for `QueueBuilder._dedupe_preserve_order`: `seen` is the set of
video ids already kept; a video whose id is falsy (`None` or `""`) or already
seen is dropped. -/
def dedupeGo (seen : List String) : List Video → List Video
  | [] => []
  | v :: rest =>
    match v.video_id with
    | none => dedupeGo seen rest
    | some i =>
      if i = "" ∨ i ∈ seen then dedupeGo seen rest
      else v :: dedupeGo (i :: seen) rest

/-- Embeds `QueueBuilder._dedupe_preserve_order`. -/
def _dedupe_preserve_order (videos : List Video) : List Video :=
  dedupeGo [] videos

/-- The inner `while queue:` loop of `_build_round_robin_by_date`: pop from
the front until a video with a fresh, non-falsy id is found (returning it with
the rest of the queue) or the queue empties. -/
def popFresh (seen : List String) : List Video → Option (String × Video × List Video)
  | [] => none
  | v :: rest =>
    match v.video_id with
    | none => popFresh seen rest
    | some i =>
      if i = "" ∨ i ∈ seen then popFresh seen rest
      else some (i, v, rest)

/-- Total number of unconsumed videos across the per-source queues. -/
def totalLen (srcs : List (List Video)) : Nat :=
  (srcs.map List.length).sum

/-- One round of the `for idx in active_indexes:` loop: visit the given
indexes in order; for each, run the inner pop loop on that source's queue,
recording the popped video (if any) and whether any index made progress.
Result: `(queues, seen, result, progress)`. -/
def visitRound : List Nat → List (List Video) → List String → List Video →
    List (List Video) × List String × List Video × Bool
  | [], srcs, seen, acc => (srcs, seen, acc, false)
  | idx :: rest, srcs, seen, acc =>
    match popFresh seen (srcs.getD idx []) with
    | none => visitRound rest (srcs.set idx []) seen acc
    | some (i, v, remaining) =>
      let r := visitRound rest (srcs.set idx remaining) (i :: seen) (acc ++ [v])
      (r.1, r.2.1, r.2.2.1, true)

theorem popFresh_length {seen : List String} :
    ∀ {q : List Video} {i v rem}, popFresh seen q = some (i, v, rem) →
      rem.length < q.length := by
  intro q
  induction q with
  | nil => intro i v rem h; simp [popFresh] at h
  | cons a t ih =>
    intro i v rem h
    cases ha : a.video_id with
    | none =>
      simp only [popFresh, ha] at h
      exact Nat.lt_trans (ih h) (Nat.lt_succ_self _)
    | some j =>
      by_cases hj : j = "" ∨ j ∈ seen
      · simp only [popFresh, ha, if_pos hj] at h
        exact Nat.lt_trans (ih h) (Nat.lt_succ_self _)
      · simp only [popFresh, ha, if_neg hj, Option.some.injEq, Prod.mk.injEq] at h
        obtain ⟨-, -, rfl⟩ := h
        exact Nat.lt_succ_self _

theorem totalLen_set (srcs : List (List Video)) (idx : Nat) (x : List Video)
    (h : idx < srcs.length) :
    totalLen (srcs.set idx x) + (srcs.getD idx []).length = totalLen srcs + x.length := by
  induction srcs generalizing idx with
  | nil => simp at h
  | cons a t ih =>
    cases idx with
    | zero => simp [totalLen]; omega
    | succ n =>
      simp only [List.set, totalLen, List.map, List.sum_cons, List.getD_cons_succ]
      have := ih n (by simpa using h)
      simp only [totalLen] at this
      omega

theorem totalLen_set_le (srcs : List (List Video)) (idx : Nat) (x : List Video)
    (hx : x.length ≤ (srcs.getD idx []).length) :
    totalLen (srcs.set idx x) ≤ totalLen srcs := by
  by_cases h : idx < srcs.length
  · have := totalLen_set srcs idx x h
    omega
  · rw [List.set_eq_of_length_le (Nat.le_of_not_lt h)]

theorem totalLen_set_lt (srcs : List (List Video)) (idx : Nat) (x : List Video)
    (hx : x.length < (srcs.getD idx []).length) :
    totalLen (srcs.set idx x) < totalLen srcs := by
  by_cases h : idx < srcs.length
  · have := totalLen_set srcs idx x h
    omega
  · exfalso
    rw [List.getD_eq_default] at hx
    · simp at hx
    · exact Nat.le_of_not_lt h

theorem visitRound_totalLen_le :
    ∀ (order : List Nat) (srcs : List (List Video)) (seen : List String)
      (acc : List Video),
      totalLen (visitRound order srcs seen acc).1 ≤ totalLen srcs := by
  intro order
  induction order with
  | nil => intro srcs seen acc; simp [visitRound]
  | cons idx rest ih =>
    intro srcs seen acc
    simp only [visitRound]
    cases hp : popFresh seen (srcs.getD idx []) with
    | none =>
      exact Nat.le_trans (ih _ _ _) (totalLen_set_le _ _ _ (by simp))
    | some t =>
      obtain ⟨i, v, rem⟩ := t
      exact Nat.le_trans (ih _ _ _)
        (totalLen_set_le _ _ _ (Nat.le_of_lt (popFresh_length hp)))

theorem visitRound_totalLen_lt :
    ∀ (order : List Nat) (srcs : List (List Video)) (seen : List String)
      (acc : List Video),
      (visitRound order srcs seen acc).2.2.2 = true →
      totalLen (visitRound order srcs seen acc).1 < totalLen srcs := by
  intro order
  induction order with
  | nil => intro srcs seen acc h; simp [visitRound] at h
  | cons idx rest ih =>
    intro srcs seen acc h
    simp only [visitRound] at h ⊢
    cases hp : popFresh seen (srcs.getD idx []) with
    | none =>
      rw [hp] at h
      exact Nat.lt_of_lt_of_le (ih _ _ _ h) (totalLen_set_le _ _ _ (by simp))
    | some t =>
      obtain ⟨i, v, rem⟩ := t
      exact Nat.lt_of_le_of_lt (visitRound_totalLen_le _ _ _ _)
        (totalLen_set_lt _ _ _ (popFresh_length hp))

/-- The `while True:` loop of `_build_round_robin_by_date`: compute the active
(non-empty) source indexes, stop if none; otherwise visit them in the order
chosen by the shuffler for this round and repeat while progress was made. -/
def roundRobinGo (shuffler : Nat → List Nat → List Nat) (round : Nat)
    (srcs : List (List Video)) (seen : List String) (acc : List Video) :
    List Video :=
  let active := (List.range srcs.length).filter (fun i => !(srcs.getD i []).isEmpty)
  if active.isEmpty then acc
  else
    let r := visitRound (shuffler round active) srcs seen acc
    if h : r.2.2.2 then roundRobinGo shuffler (round + 1) r.1 r.2.1 r.2.2.1
    else r.2.2.1
termination_by totalLen srcs
decreasing_by exact visitRound_totalLen_lt _ _ _ _ h

/-- Embeds `QueueBuilder._build_round_robin_by_date`: per-source stable sort by
upload date, then the randomized round-robin interleave with global first-seen
deduplication. -/
def _build_round_robin_by_date (shuffler : Nat → List Nat → List Nat)
    (videos_by_source : List (List Video)) (newest_first : Bool) : List Video :=
  let ordered_sources :=
    (videos_by_source.filter (fun l => !l.isEmpty)).map (sortVideosByDate newest_first)
  roundRobinGo shuffler 0 ordered_sources [] []

/-- Video ids present in a list of videos (absent ids skipped). -/
def idsOf (l : List Video) : List String := l.filterMap Video.video_id

theorem popFresh_some :
    ∀ {seen : List String} {q : List Video} {i v rem},
      popFresh seen q = some (i, v, rem) →
      v.video_id = some i ∧ i ≠ "" ∧ i ∉ seen := by
  intro seen q
  induction q with
  | nil => intro i v rem h; simp [popFresh] at h
  | cons a t ih =>
    intro i v rem h
    cases ha : a.video_id with
    | none =>
      simp only [popFresh, ha] at h
      exact ih h
    | some j =>
      by_cases hj : j = "" ∨ j ∈ seen
      · simp only [popFresh, ha, if_pos hj] at h
        exact ih h
      · simp only [popFresh, ha, if_neg hj, Option.some.injEq, Prod.mk.injEq] at h
        obtain ⟨rfl, rfl, rfl⟩ := h
        push_neg at hj
        exact ⟨ha, hj.1, hj.2⟩

theorem mem_idsOf_dedupeGo {i : String} :
    ∀ (seen : List String) (l : List Video),
      i ∈ idsOf (dedupeGo seen l) ↔ i ∈ idsOf l ∧ i ≠ "" ∧ i ∉ seen := by
  intro seen l
  induction l generalizing seen with
  | nil => simp [dedupeGo, idsOf]
  | cons v rest ih =>
    cases hv : v.video_id with
    | none =>
      simp only [dedupeGo, hv, idsOf, List.filterMap_cons]
      exact ih seen
    | some j =>
      by_cases hj : j = "" ∨ j ∈ seen
      · simp only [dedupeGo, hv, if_pos hj, idsOf, List.filterMap_cons]
        simp only [idsOf] at ih
        rw [ih seen]
        constructor
        · rintro ⟨h1, h2, h3⟩; exact ⟨List.mem_cons_of_mem _ h1, h2, h3⟩
        · rintro ⟨h1, h2, h3⟩
          rcases List.mem_cons.mp h1 with rfl | h1
          · rcases hj with rfl | hjs
            · exact absurd rfl h2
            · exact absurd hjs h3
          · exact ⟨h1, h2, h3⟩
      · simp only [dedupeGo, hv, if_neg hj, idsOf, List.filterMap_cons, List.mem_cons]
        simp only [idsOf] at ih
        rw [ih (j :: seen)]
        push_neg at hj
        constructor
        · rintro (rfl | ⟨h1, h2, h3⟩)
          · exact ⟨Or.inl rfl, hj.1, hj.2⟩
          · exact ⟨Or.inr h1, h2, fun hs => h3 (List.mem_cons_of_mem _ hs)⟩
        · rintro ⟨rfl | h1, h2, h3⟩
          · exact Or.inl rfl
          · by_cases hij : i = j
            · exact Or.inl hij
            · exact Or.inr ⟨h1, h2, by
                intro hs
                rcases List.mem_cons.mp hs with h | h
                · exact hij h
                · exact h3 h⟩

theorem idsOf_dedupeGo_nodup :
    ∀ (seen : List String) (l : List Video), (idsOf (dedupeGo seen l)).Nodup := by
  intro seen l
  induction l generalizing seen with
  | nil => simp [dedupeGo, idsOf]
  | cons v rest ih =>
    cases hv : v.video_id with
    | none => simpa only [dedupeGo, hv] using ih seen
    | some j =>
      by_cases hj : j = "" ∨ j ∈ seen
      · simpa only [dedupeGo, hv, if_pos hj] using ih seen
      · simp only [dedupeGo, hv, if_neg hj, idsOf, List.filterMap_cons]
        have hih := ih (j :: seen)
        simp only [idsOf] at hih
        refine List.Nodup.cons ?_ hih
        intro hmem
        have hmem' := @mem_idsOf_dedupeGo j (j :: seen) rest
        simp only [idsOf] at hmem'
        exact (hmem'.mp hmem).2.2 (List.mem_cons_self j seen)

theorem dedupeGo_sig :
    ∀ (seen : List String) (l : List Video) (v : Video), v ∈ dedupeGo seen l →
      ∃ i, v.video_id = some i ∧ i ≠ "" ∧ i ∉ seen := by
  intro seen l
  induction l generalizing seen with
  | nil => intro v h; simp [dedupeGo] at h
  | cons w rest ih =>
    intro v h
    cases hw : w.video_id with
    | none =>
      simp only [dedupeGo, hw] at h
      exact ih seen v h
    | some j =>
      by_cases hj : j = "" ∨ j ∈ seen
      · simp only [dedupeGo, hw, if_pos hj] at h
        exact ih seen v h
      · simp only [dedupeGo, hw, if_neg hj] at h
        push_neg at hj
        rcases List.mem_cons.mp h with rfl | h
        · exact ⟨j, hw, hj.1, hj.2⟩
        · obtain ⟨i, hi1, hi2, hi3⟩ := ih (j :: seen) v h
          exact ⟨i, hi1, hi2, fun hs => hi3 (List.mem_cons_of_mem _ hs)⟩

theorem length_dedupeGo :
    ∀ (seen : List String) (l : List Video),
      (dedupeGo seen l).length = (idsOf (dedupeGo seen l)).length := by
  intro seen l
  induction l generalizing seen with
  | nil => simp [dedupeGo, idsOf]
  | cons v rest ih =>
    cases hv : v.video_id with
    | none => simp only [dedupeGo, hv]; exact ih seen
    | some j =>
      by_cases hj : j = "" ∨ j ∈ seen
      · simp only [dedupeGo, hv, if_pos hj]; exact ih seen
      · simp only [dedupeGo, hv, if_neg hj, idsOf, List.filterMap_cons,
          List.length_cons]
        simp only [idsOf] at ih
        rw [ih (j :: seen)]

theorem visitRound_acc_mem :
    ∀ (order : List Nat) (srcs : List (List Video)) (seen : List String)
      (acc : List Video) (v : Video),
      v ∈ (visitRound order srcs seen acc).2.2.1 →
      v ∈ acc ∨ ∃ i, v.video_id = some i ∧ i ≠ "" := by
  intro order
  induction order with
  | nil => intro srcs seen acc v h; simpa [visitRound] using Or.inl h
  | cons idx rest ih =>
    intro srcs seen acc v h
    simp only [visitRound] at h
    cases hp : popFresh seen (srcs.getD idx []) with
    | none =>
      rw [hp] at h
      exact ih _ _ _ v h
    | some t =>
      obtain ⟨i, w, rem⟩ := t
      rw [hp] at h
      rcases ih _ _ _ v h with hacc | hgood
      · rcases List.mem_append.mp hacc with hacc | hw
        · exact Or.inl hacc
        · obtain ⟨h1, h2, -⟩ := popFresh_some hp
          have : v = w := by simpa using hw
          exact Or.inr ⟨i, this ▸ h1, h2⟩
      · exact Or.inr hgood

theorem roundRobinGo_mem (shuffler : Nat → List Nat → List Nat) :
    ∀ (round : Nat) (srcs : List (List Video)) (seen : List String)
      (acc : List Video) (v : Video),
      v ∈ roundRobinGo shuffler round srcs seen acc →
      v ∈ acc ∨ ∃ i, v.video_id = some i ∧ i ≠ "" := by
  intro round srcs seen acc
  induction round, srcs, seen, acc using roundRobinGo.induct shuffler with
  | case1 round srcs seen acc active hact =>
    intro v h
    rw [roundRobinGo] at h
    split at h
    · exact Or.inl h
    · rename_i hneg; exact absurd hact hneg
  | case2 round srcs seen acc active hact r hr ih =>
    intro v h
    rw [roundRobinGo] at h
    split at h
    · rename_i hpos; exact absurd hpos hact
    · dsimp only [] at h
      split at h
      · rcases ih v h with hmem | hgood
        · exact visitRound_acc_mem (shuffler round active) srcs seen acc v hmem
        · exact Or.inr hgood
      · rename_i hc; exact absurd hr hc
  | case3 round srcs seen acc active hact r hr =>
    intro v h
    rw [roundRobinGo] at h
    split at h
    · rename_i hpos; exact absurd hpos hact
    · dsimp only [] at h
      split at h
      · rename_i hc; exact absurd hc hr
      · exact visitRound_acc_mem (shuffler round active) srcs seen acc v h

/-- Concrete video with id "a" and a known timestamp. -/
def vidA : Video := ⟨some "a", "ua", "ta", "tha", "ca", some 10⟩

/-- Concrete video with id "b" and an unknown timestamp. -/
def vidB : Video := ⟨some "b", "ub", "tb", "thb", "cb", none⟩

/-- Concrete video sharing id "a" with `vidA` (a cross-source duplicate). -/
def vidA2 : Video := ⟨some "a", "ua2", "ta2", "tha2", "ca2", some 7⟩

/-- Concrete video whose dictionary has no `video_id` key. -/
def vidNoId : Video := ⟨none, "un", "tn", "thn", "cn", some 3⟩

/-- C1: for any collection of source lists whose combined distinct-video-id
count is D, the RANDOM ordering (flatten, then any permutation produced by
`random.shuffle`, then `_dedupe_preserve_order`) returns exactly D
descriptors, each video id appearing exactly once, and exactly the input ids
appear.  (As everywhere in the spec's data model, descriptors carry a
non-empty video id.) -/
theorem C1_random_order_dedup_completeness
    (videos_by_source : List (List Video)) (shuffled : List Video)
    (hperm : shuffled.Perm videos_by_source.flatten)
    (hids : ∀ v ∈ videos_by_source.flatten, ∃ i, v.video_id = some i ∧ i ≠ "") :
    (_dedupe_preserve_order shuffled).length =
      (idsOf videos_by_source.flatten).toFinset.card ∧
    (idsOf (_dedupe_preserve_order shuffled)).Nodup ∧
    (∀ i, i ∈ idsOf (_dedupe_preserve_order shuffled) ↔
      i ∈ idsOf videos_by_source.flatten) := by
  have hp : (idsOf shuffled).Perm (idsOf videos_by_source.flatten) :=
    hperm.filterMap Video.video_id
  have hmem : ∀ i : String, i ∈ idsOf (_dedupe_preserve_order shuffled) ↔
      i ∈ idsOf videos_by_source.flatten := by
    intro i
    rw [_dedupe_preserve_order, mem_idsOf_dedupeGo]
    constructor
    · rintro ⟨h1, -, -⟩
      exact hp.mem_iff.mp h1
    · intro h1
      obtain ⟨v, hv, hvi⟩ := List.mem_filterMap.mp h1
      obtain ⟨i', hi', hne⟩ := hids v hv
      rw [hvi] at hi'
      obtain rfl : i = i' := by injection hi'
      exact ⟨hp.mem_iff.mpr h1, hne, List.not_mem_nil i⟩
  have hnodup : (idsOf (_dedupe_preserve_order shuffled)).Nodup :=
    idsOf_dedupeGo_nodup [] shuffled
  refine ⟨?_, hnodup, hmem⟩
  have h1 : (_dedupe_preserve_order shuffled).length =
      (idsOf (_dedupe_preserve_order shuffled)).length :=
    length_dedupeGo [] shuffled
  have h2 := List.toFinset_card_of_nodup hnodup
  have h3 : (idsOf (_dedupe_preserve_order shuffled)).toFinset =
      (idsOf videos_by_source.flatten).toFinset := by
    ext i
    simpa using hmem i
  rw [h1, ← h2, h3]

/-- Witness for C1 at the concrete input with source lists
`[[vidA, vidB], [vidA2]]` (ids a, b, a — two distinct ids) and the shuffle
outcome `[vidB, vidA2, vidA]`. -/
theorem C1_random_order_dedup_completeness_witness :
    (_dedupe_preserve_order [vidB, vidA2, vidA]).length =
      (idsOf ([[vidA, vidB], [vidA2]] : List (List Video)).flatten).toFinset.card ∧
    (idsOf (_dedupe_preserve_order [vidB, vidA2, vidA])).Nodup ∧
    (∀ i, i ∈ idsOf (_dedupe_preserve_order [vidB, vidA2, vidA]) ↔
      i ∈ idsOf ([[vidA, vidB], [vidA2]] : List (List Video)).flatten) :=
  C1_random_order_dedup_completeness [[vidA, vidB], [vidA2]] [vidB, vidA2, vidA]
    (by decide)
    (by
      intro v hv
      fin_cases hv
      · exact ⟨"a", rfl, by decide⟩
      · exact ⟨"b", rfl, by decide⟩
      · exact ⟨"a", rfl, by decide⟩)

/-- C9: under every ordering policy a descriptor whose video id is missing or
empty is silently dropped — it never appears in the ordered output — and the
output can be strictly shorter than the input even when no two input
descriptors share a video id. -/
theorem C9_falsy_video_ids_dropped :
    (∀ (l : List Video) (v : Video), v ∈ _dedupe_preserve_order l →
        ∃ i, v.video_id = some i ∧ i ≠ "") ∧
    (∀ (shuffler : Nat → List Nat → List Nat) (vbs : List (List Video))
        (nf : Bool) (v : Video), v ∈ _build_round_robin_by_date shuffler vbs nf →
        ∃ i, v.video_id = some i ∧ i ≠ "") ∧
    List.Pairwise (fun u w : Video => u.video_id ≠ w.video_id) [vidNoId, vidA] ∧
    (_dedupe_preserve_order [vidNoId, vidA]).length <
      ([vidNoId, vidA] : List Video).length := by
  refine ⟨?_, ?_, by decide, by decide⟩
  · intro l v h
    obtain ⟨i, h1, h2, -⟩ := dedupeGo_sig [] l v h
    exact ⟨i, h1, h2⟩
  · intro shuffler vbs nf v h
    rw [_build_round_robin_by_date] at h
    rcases roundRobinGo_mem shuffler 0
        ((vbs.filter (fun l => !l.isEmpty)).map (sortVideosByDate nf)) [] [] v h with
      hc | hgood
    · exact absurd hc (List.not_mem_nil v)
    · exact hgood

/-- Witness for C9: its first conjunct applied to the concrete input
`[vidNoId, vidA]` and the member `vidA` of its deduplicated output. -/
theorem C9_falsy_video_ids_dropped_witness :
    ∃ i, vidA.video_id = some i ∧ i ≠ "" :=
  C9_falsy_video_ids_dropped.1 [vidNoId, vidA] vidA (by decide)

/-- Invariant of the round-robin loop state: every unconsumed video carries a
non-empty id, ids are globally distinct across the remaining queues, and no
remaining id has been seen yet. -/
structure RRInv (srcs : List (List Video)) (seen : List String) : Prop where
  good : ∀ v ∈ srcs.flatten, ∃ i, v.video_id = some i ∧ i ≠ ""
  nodupIds : (idsOf srcs.flatten).Nodup
  fresh : ∀ v ∈ srcs.flatten, ∀ i, v.video_id = some i → i ∉ seen

theorem idsOf_append (a b : List Video) : idsOf (a ++ b) = idsOf a ++ idsOf b :=
  List.filterMap_append a b Video.video_id

theorem mem_idsOf_of_mem {v : Video} {l : List Video} {i : String}
    (hv : v ∈ l) (hi : v.video_id = some i) : i ∈ idsOf l :=
  List.mem_filterMap.mpr ⟨v, hv, hi⟩

theorem popFresh_head {seen : List String} {v : Video} {rest : List Video} {i : String}
    (hv : v.video_id = some i) (hne : i ≠ "") (hns : i ∉ seen) :
    popFresh seen (v :: rest) = some (i, v, rest) := by
  simp [popFresh, hv, hne, hns]

theorem popFresh_none_nil {seen : List String} {q : List Video}
    (hgood : ∀ v ∈ q, ∃ i, v.video_id = some i ∧ i ≠ "")
    (hfresh : ∀ v ∈ q, ∀ i, v.video_id = some i → i ∉ seen)
    (h : popFresh seen q = none) : q = [] := by
  cases q with
  | nil => rfl
  | cons v rest =>
    obtain ⟨i, hi, hne⟩ := hgood v (List.mem_cons_self v rest)
    rw [popFresh_head hi hne (hfresh v (List.mem_cons_self v rest) i hi)] at h
    cases h

theorem popFresh_inv_head {seen : List String} {q : List Video} {i : String}
    {v : Video} {rem : List Video}
    (hgood : ∀ w ∈ q, ∃ j, w.video_id = some j ∧ j ≠ "")
    (hfresh : ∀ w ∈ q, ∀ j, w.video_id = some j → j ∉ seen)
    (h : popFresh seen q = some (i, v, rem)) :
    q = v :: rem ∧ v.video_id = some i := by
  cases q with
  | nil => simp [popFresh] at h
  | cons a t =>
    obtain ⟨j, hj, hne⟩ := hgood a (List.mem_cons_self a t)
    rw [popFresh_head hj hne (hfresh a (List.mem_cons_self a t) j hj)] at h
    simp only [Option.some.injEq, Prod.mk.injEq] at h
    obtain ⟨rfl, rfl, rfl⟩ := h
    exact ⟨rfl, hj⟩

theorem set_nil_of_getD_nil :
    ∀ (srcs : List (List Video)) (idx : Nat), srcs.getD idx [] = [] →
      srcs.set idx [] = srcs := by
  intro srcs
  induction srcs with
  | nil => intro idx h; rfl
  | cons a t ih =>
    intro idx h
    cases idx with
    | zero => simp only [List.getD_cons_zero] at h; simp [h]
    | succ n =>
      simp only [List.getD_cons_succ] at h
      simp [List.set, ih n h]

theorem flatten_decomp (srcs : List (List Video)) (idx : Nat)
    (h : idx < srcs.length) (x : List Video) :
    srcs.flatten =
      (srcs.take idx).flatten ++ srcs.getD idx [] ++ (srcs.drop (idx + 1)).flatten ∧
    (srcs.set idx x).flatten =
      (srcs.take idx).flatten ++ x ++ (srcs.drop (idx + 1)).flatten := by
  induction srcs generalizing idx with
  | nil => simp at h
  | cons a t ih =>
    cases idx with
    | zero => simp
    | succ n =>
      have hn : n < t.length := by simpa using h
      obtain ⟨h1, h2⟩ := ih n hn
      constructor
      · simpa [List.flatten_cons, List.append_assoc] using congrArg (a ++ ·) h1
      · simpa [List.flatten_cons, List.append_assoc] using congrArg (a ++ ·) h2

theorem flatten_sub_of_pointwise {srcs srcs' : List (List Video)}
    (hlen : srcs'.length = srcs.length)
    (hpt : ∀ j, j < srcs.length →
      ∃ pre, srcs.getD j [] = pre ++ srcs'.getD j []) :
    ∀ v ∈ srcs'.flatten, v ∈ srcs.flatten := by
  intro v hv
  obtain ⟨l, hl, hvl⟩ := List.mem_flatten.mp hv
  obtain ⟨⟨j, hj⟩, hget⟩ := List.mem_iff_get.mp hl
  have hj' : j < srcs.length := hlen ▸ hj
  obtain ⟨pre, hpre⟩ := hpt j hj'
  have hgd : srcs'.getD j [] = l := by
    rw [List.getD_eq_getElem srcs' [] hj]
    exact hget
  refine List.mem_flatten.mpr ⟨srcs.getD j [], ?_, ?_⟩
  · rw [List.getD_eq_getElem srcs [] hj']
    exact List.getElem_mem _
  · rw [hpre, hgd]
    exact List.mem_append_right pre hvl

theorem getD_mem_flatten {srcs : List (List Video)} {idx : Nat} {v : Video}
    (hv : v ∈ srcs.getD idx []) : v ∈ srcs.flatten := by
  by_cases hlt : idx < srcs.length
  · refine List.mem_flatten.mpr ⟨srcs.getD idx [], ?_, hv⟩
    rw [List.getD_eq_getElem srcs [] hlt]
    exact List.getElem_mem _
  · rw [List.getD_eq_default _ _ (Nat.le_of_not_lt hlt)] at hv
    cases hv

theorem nodup_middle_not_mem {α : Type} {a : α} {A m B : List α}
    (h : (A ++ (a :: m) ++ B).Nodup) : ¬a ∈ A ++ m ++ B := by
  have h1 : A ++ (a :: m) ++ B = A ++ a :: (m ++ B) := by
    simp [List.append_assoc]
  rw [h1] at h
  have h2 := (List.perm_middle.nodup_iff).mp h
  have h3 := (List.nodup_cons.mp h2).1
  simpa [List.append_assoc] using h3

theorem visitRound_spec :
    ∀ (order : List Nat) (srcs : List (List Video)) (seen : List String)
      (acc : List Video), RRInv srcs seen →
      ∃ δ : List Video,
        (visitRound order srcs seen acc).2.2.1 = acc ++ δ ∧
        (visitRound order srcs seen acc).1.length = srcs.length ∧
        RRInv (visitRound order srcs seen acc).1 (visitRound order srcs seen acc).2.1 ∧
        (∀ v ∈ δ, v ∈ srcs.flatten) ∧
        (∀ v ∈ δ, ∀ i, v.video_id = some i →
          i ∈ (visitRound order srcs seen acc).2.1) ∧
        (∀ v ∈ δ, ∀ i, v.video_id = some i → i ∉ seen) ∧
        (∀ j, j < srcs.length →
          srcs.getD j [] =
            δ.filter (fun v => decide (v ∈ srcs.getD j [])) ++
              (visitRound order srcs seen acc).1.getD j []) ∧
        ((visitRound order srcs seen acc).2.2.2 = true ↔ δ ≠ []) ∧
        (δ = [] → ∀ idx ∈ order, srcs.getD idx [] = []) ∧
        (idsOf δ).Nodup ∧
        (∀ s ∈ seen, s ∈ (visitRound order srcs seen acc).2.1) := by
  intro order
  induction order with
  | nil =>
    intro srcs seen acc hInv
    refine ⟨[], by simp [visitRound], by simp [visitRound],
      by simpa only [visitRound] using hInv, by simp, by simp, by simp, ?_,
      by simp [visitRound], by simp, by simp [idsOf],
      fun s hs => by simpa only [visitRound] using hs⟩
    intro j hj
    simp [visitRound]
  | cons idx rest ih =>
    intro srcs seen acc hInv
    cases hp : popFresh seen (srcs.getD idx []) with
    | none =>
      have hq : srcs.getD idx [] = [] :=
        popFresh_none_nil (fun w hw => hInv.good w (getD_mem_flatten hw))
          (fun w hw => hInv.fresh w (getD_mem_flatten hw)) hp
      have hset : srcs.set idx [] = srcs := set_nil_of_getD_nil srcs idx hq
      have hstep : visitRound (idx :: rest) srcs seen acc =
          visitRound rest srcs seen acc := by
        simp only [visitRound, hp, hset]
      rw [hstep]
      obtain ⟨δ, hA, hB, hC, hD, hE, hF, hG, hH, hI, hJ, hK⟩ := ih srcs seen acc hInv
      refine ⟨δ, hA, hB, hC, hD, hE, hF, hG, hH, ?_, hJ, hK⟩
      intro hδ idx2 hidx2
      rcases List.mem_cons.mp hidx2 with rfl | h2
      · exact hq
      · exact hI hδ idx2 h2
    | some t =>
      obtain ⟨i, v, rem⟩ := t
      obtain ⟨hvid, hine, hins⟩ := popFresh_some hp
      obtain ⟨hq, -⟩ :=
        popFresh_inv_head (fun w hw => hInv.good w (getD_mem_flatten hw))
          (fun w hw => hInv.fresh w (getD_mem_flatten hw)) hp
      have hlt : idx < srcs.length := by
        by_contra hge
        rw [List.getD_eq_default _ _ (Nat.le_of_not_lt hge)] at hq
        cases hq
      obtain ⟨hflat, hflat'⟩ := flatten_decomp srcs idx hlt rem
      rw [hq] at hflat
      have hsub : ∀ w ∈ (srcs.set idx rem).flatten, w ∈ srcs.flatten := by
        intro w hw
        rw [hflat'] at hw
        rw [hflat]
        simp only [List.mem_append, List.mem_cons] at hw ⊢
        tauto
      have hvmem : v ∈ srcs.flatten := by
        rw [hflat]
        simp
      have hsubl : List.Sublist ((srcs.set idx rem).flatten) srcs.flatten := by
        rw [hflat, hflat']
        exact ((List.sublist_cons_self v rem).append_left _).append_right _
      have hids1 : idsOf ((srcs.take idx).flatten ++ (v :: rem) ++
          (srcs.drop (idx + 1)).flatten) =
          idsOf (srcs.take idx).flatten ++ (i :: idsOf rem) ++
            idsOf (srcs.drop (idx + 1)).flatten := by
        rw [idsOf_append, idsOf_append]
        congr 1
        congr 1
        simp [idsOf, List.filterMap_cons, hvid]
      have hino : i ∉ idsOf ((srcs.set idx rem).flatten) := by
        have h0 := hInv.nodupIds
        rw [hflat, hids1] at h0
        have h2 := nodup_middle_not_mem h0
        rw [hflat', idsOf_append, idsOf_append]
        exact h2
      have hfresh' : ∀ w ∈ (srcs.set idx rem).flatten, ∀ iw,
          w.video_id = some iw → iw ∉ i :: seen := by
        intro w hw iw hiw hmem
        rcases List.mem_cons.mp hmem with rfl | hmem
        · exact hino (mem_idsOf_of_mem hw hiw)
        · exact hInv.fresh w (hsub w hw) iw hiw hmem
      have hInv' : RRInv (srcs.set idx rem) (i :: seen) :=
        ⟨fun w hw => hInv.good w (hsub w hw),
         List.Nodup.sublist (hsubl.filterMap _) hInv.nodupIds,
         hfresh'⟩
      obtain ⟨δ', hA, hB, hC, hD, hE, hF, hG, hH, hI, hJ, hK⟩ :=
        ih (srcs.set idx rem) (i :: seen) (acc ++ [v]) hInv'
      have hstep : visitRound (idx :: rest) srcs seen acc =
          ((visitRound rest (srcs.set idx rem) (i :: seen) (acc ++ [v])).1,
           (visitRound rest (srcs.set idx rem) (i :: seen) (acc ++ [v])).2.1,
           (visitRound rest (srcs.set idx rem) (i :: seen) (acc ++ [v])).2.2.1,
           true) := by
        simp only [visitRound, hp]
      rw [hstep]
      dsimp only
      have hwne : ∀ w ∈ δ', w ≠ v := by
        intro w hw heq
        subst heq
        exact hF w hw i hvid (List.mem_cons_self i seen)
      refine ⟨v :: δ', ?_, ?_, hC, ?_, ?_, ?_, ?_, by simp, ?_, ?_, ?_⟩
      · rw [hA]
        simp
      · rw [hB, List.length_set]
      · intro w hw
        rcases List.mem_cons.mp hw with rfl | hw
        · exact hvmem
        · exact hsub w (hD w hw)
      · intro w hw iw hiw
        rcases List.mem_cons.mp hw with rfl | hw
        · cases hvid ▸ hiw
          exact hK i (List.mem_cons_self i seen)
        · exact hE w hw iw hiw
      · intro w hw iw hiw
        rcases List.mem_cons.mp hw with rfl | hw
        · cases hvid ▸ hiw
          exact hins
        · exact fun hmem => hF w hw iw hiw (List.mem_cons_of_mem i hmem)
      · intro j hj
        by_cases hji : j = idx
        · subst hji
          rw [hq]
          have hmemv : decide (v ∈ v :: rem) = true := by simp
          rw [List.filter_cons, if_pos hmemv]
          have hgd' : (srcs.set j rem).getD j [] = rem := by
            rw [List.getD_eq_getElem _ [] (by simpa using hlt)]
            simp
          have hGj := hG j (by simpa using hlt)
          rw [hgd'] at hGj
          have hfc : δ'.filter (fun w => decide (w ∈ v :: rem)) =
              δ'.filter (fun w => decide (w ∈ rem)) := by
            apply List.filter_congr
            intro w hw
            simp [List.mem_cons, hwne w hw]
          rw [List.cons_append, hfc, ← hGj]
        · have hgdne : (srcs.set idx rem).getD j [] = srcs.getD j [] := by
            by_cases hjl : j < srcs.length
            · rw [List.getD_eq_getElem _ [] (by simpa using hjl),
                List.getD_eq_getElem srcs [] hjl]
              exact List.getElem_set_ne (fun h => hji h.symm) _
            · rw [List.getD_eq_default _ _ (Nat.le_of_not_lt hjl),
                List.getD_eq_default _ _ (by simpa using Nat.le_of_not_lt hjl)]
          have hvnot : decide (v ∈ srcs.getD j []) = false := by
            simp only [decide_eq_false_iff_not]
            intro hvj
            rw [← hgdne] at hvj
            exact hfresh' v (getD_mem_flatten hvj) i hvid (List.mem_cons_self i seen)
          rw [List.filter_cons, hvnot]
          have hGj := hG j (by simpa using hj)
          rw [hgdne] at hGj
          simp only [Bool.false_eq_true, if_neg]
          exact hGj
      · intro hcon
        cases hcon
      · have hidsδ : idsOf (v :: δ') = i :: idsOf δ' := by
          simp [idsOf, List.filterMap_cons, hvid]
        rw [hidsδ]
        refine List.Nodup.cons ?_ hJ
        intro hmem
        obtain ⟨w, hw, hwid⟩ := List.mem_filterMap.mp hmem
        exact hF w hw i hwid (List.mem_cons_self i seen)
      · intro s hs
        exact hK s (List.mem_cons_of_mem i hs)

theorem roundRobinGo_spec (shuffler : Nat → List Nat → List Nat)
    (hshuf : ∀ n l, (shuffler n l).Perm l) :
    ∀ (round : Nat) (srcs : List (List Video)) (seen : List String)
      (acc : List Video), RRInv srcs seen →
      ∃ Δ : List Video,
        roundRobinGo shuffler round srcs seen acc = acc ++ Δ ∧
        (∀ v ∈ Δ, v ∈ srcs.flatten) ∧
        (∀ v ∈ Δ, ∀ i, v.video_id = some i → i ∉ seen) ∧
        (idsOf Δ).Nodup ∧
        (∀ j, j < srcs.length →
          Δ.filter (fun v => decide (v ∈ srcs.getD j [])) = srcs.getD j []) := by
  intro round srcs seen acc
  induction round, srcs, seen, acc using roundRobinGo.induct shuffler with
  | case1 round srcs seen acc active hact =>
    intro hInv
    have hout : roundRobinGo shuffler round srcs seen acc = acc := by
      rw [roundRobinGo]
      split
      · rfl
      · rename_i hneg; exact absurd hact hneg
    have hzero : (List.filter (fun i => !(srcs.getD i []).isEmpty)
        (List.range srcs.length)) = [] := List.isEmpty_iff.mp hact
    have hempty : ∀ j, j < srcs.length → srcs.getD j [] = [] := by
      intro j hj
      by_contra hne
      have hmem : j ∈ List.filter (fun i => !(srcs.getD i []).isEmpty)
          (List.range srcs.length) := by
        apply List.mem_filter.mpr
        refine ⟨List.mem_range.mpr hj, ?_⟩
        simp only [Bool.not_eq_true', ← List.isEmpty_iff] at hne ⊢
        simpa using hne
      rw [hzero] at hmem
      exact absurd hmem (List.not_mem_nil j)
    refine ⟨[], by simpa using hout, by simp, by simp, by simp [idsOf], ?_⟩
    intro j hj
    rw [hempty j hj]
    simp
  | case2 round srcs seen acc active hact r hr ih =>
    intro hInv
    obtain ⟨δ, hA, hB, hC, hD, hE, hF, hG, hH, hI, hJ, hK⟩ :=
      visitRound_spec (shuffler round active) srcs seen acc hInv
    obtain ⟨Δ', hout', hD', hF', hJ', hG'⟩ := ih hC
    have hout : roundRobinGo shuffler round srcs seen acc =
        roundRobinGo shuffler (round + 1) r.1 r.2.1 r.2.2.1 := by
      rw [roundRobinGo]
      split
      · rename_i hpos; exact absurd hpos hact
      · dsimp only
        split
        · rfl
        · rename_i hc; exact absurd hr hc
    have hpt : ∀ j, j < srcs.length →
        ∃ pre, srcs.getD j [] = pre ++ r.1.getD j [] :=
      fun j hj => ⟨δ.filter (fun v => decide (v ∈ srcs.getD j [])), hG j hj⟩
    have hDfl : ∀ v ∈ Δ', v ∈ srcs.flatten :=
      fun v hv => flatten_sub_of_pointwise hB hpt v (hD' v hv)
    refine ⟨δ ++ Δ', ?_, ?_, ?_, ?_, ?_⟩
    · rw [hout, hout', hA, List.append_assoc]
    · intro v hv
      rcases List.mem_append.mp hv with hv | hv
      · exact hD v hv
      · exact hDfl v hv
    · intro v hv i hi hmem
      rcases List.mem_append.mp hv with hv | hv
      · exact hF v hv i hi hmem
      · exact hF' v hv i hi (hK i hmem)
    · rw [idsOf_append, List.nodup_append]
      refine ⟨hJ, hJ', ?_⟩
      intro i hiδ hiΔ
      obtain ⟨w, hw, hwid⟩ := List.mem_filterMap.mp hiδ
      obtain ⟨w', hw', hwid'⟩ := List.mem_filterMap.mp hiΔ
      exact hF' w' hw' i hwid' (hE w hw i hwid)
    · intro j hj
      rw [List.filter_append]
      have hfc : Δ'.filter (fun v => decide (v ∈ srcs.getD j [])) =
          Δ'.filter (fun v => decide (v ∈ r.1.getD j [])) := by
        apply List.filter_congr
        intro w hw
        have hiff : w ∈ srcs.getD j [] ↔ w ∈ r.1.getD j [] := by
          constructor
          · intro hws
            rw [hG j hj] at hws
            rcases List.mem_append.mp hws with hws | hws
            · exfalso
              have hwδ : w ∈ δ := List.mem_of_mem_filter hws
              have hwfl : w ∈ r.1.flatten := hD' w hw
              obtain ⟨iw, hiw, -⟩ := hC.good w hwfl
              exact hC.fresh w hwfl iw hiw (hE w hwδ iw hiw)
            · exact hws
          · intro hwr
            rw [hG j hj]
            exact List.mem_append_right _ hwr
        exact decide_eq_decide.mpr hiff
      rw [hfc, hG' j (hB ▸ hj), ← hG j hj]
  | case3 round srcs seen acc active hact r hr =>
    intro hInv
    exfalso
    obtain ⟨δ, hA, hB, hC, hD, hE, hF, hG, hH, hI, hJ, hK⟩ :=
      visitRound_spec (shuffler round active) srcs seen acc hInv
    have hδ : δ = [] := by
      by_contra hne
      exact hr (hH.mpr hne)
    have hempty := hI hδ
    have hne : active ≠ [] := by
      intro h0
      rw [h0] at hact
      exact hact rfl
    obtain ⟨j0, hj0⟩ := List.exists_mem_of_ne_nil active hne
    have hj0ord : j0 ∈ shuffler round active := (hshuf round active).mem_iff.mpr hj0
    have hj0f := List.mem_filter.mp hj0
    have := hempty j0 hj0ord
    rw [this] at hj0f
    simpa using hj0f.2

theorem dateLE_trans (nf : Bool) (a b c : Video) :
    dateLE nf a b → dateLE nf b c → dateLE nf a c := by
  cases nf <;> simp [dateLE] <;> omega

theorem dateLE_total (nf : Bool) (a b : Video) :
    dateLE nf a b || dateLE nf b a := by
  cases nf <;> simp [dateLE] <;> omega

theorem sortVideosByDate_perm (nf : Bool) (l : List Video) :
    (sortVideosByDate nf l).Perm l :=
  List.mergeSort_perm l (dateLE nf)

theorem sortVideosByDate_pairwise (nf : Bool) (l : List Video) :
    (sortVideosByDate nf l).Pairwise (fun a b => dateLE nf a b = true) :=
  List.sorted_mergeSort (dateLE_trans nf) (dateLE_total nf) l

theorem flatten_filter_nonempty (L : List (List Video)) :
    (L.filter (fun l => !l.isEmpty)).flatten = L.flatten := by
  induction L with
  | nil => rfl
  | cons a t ih =>
    by_cases ha : a.isEmpty
    · have : a = [] := List.isEmpty_iff.mp ha
      subst this
      simpa using ih
    · rw [List.filter_cons]
      simp only [ha, Bool.not_false]
      simpa using congrArg (a ++ ·) ih

theorem nodup_of_ids {l : List Video}
    (hall : ∀ v ∈ l, ∃ i, v.video_id = some i ∧ i ≠ "")
    (hids : (idsOf l).Nodup) : l.Nodup := by
  induction l with
  | nil => simp
  | cons v rest ih =>
    obtain ⟨i, hi, -⟩ := hall v (List.mem_cons_self v rest)
    have hid : idsOf (v :: rest) = i :: idsOf rest := by
      simp [idsOf, List.filterMap_cons, hi]
    rw [hid] at hids
    obtain ⟨hnotmem, hrest⟩ := List.nodup_cons.mp hids
    refine List.nodup_cons.mpr
      ⟨?_, ih (fun w hw => hall w (List.mem_cons_of_mem _ hw)) hrest⟩
    intro hvrest
    exact hnotmem (mem_idsOf_of_mem hvrest hi)

/-- Structural specification of `_build_round_robin_by_date` under the data
model (non-empty ids, globally distinct ids) and a shuffler that permutes its
input: the output has no duplicates, and restricting the output to any one
(non-empty) source recovers exactly that source's chronologically sorted
list, in order. -/
theorem rr_sorted_source_spec (shuffler : Nat → List Nat → List Nat)
    (hshuf : ∀ n l, (shuffler n l).Perm l)
    (videos_by_source : List (List Video)) (nf : Bool)
    (hgood : ∀ v ∈ videos_by_source.flatten, ∃ i, v.video_id = some i ∧ i ≠ "")
    (hnodup : (idsOf videos_by_source.flatten).Nodup) :
    (_build_round_robin_by_date shuffler videos_by_source nf).Nodup ∧
    ∀ src ∈ videos_by_source, src ≠ [] →
      (_build_round_robin_by_date shuffler videos_by_source nf).filter
        (fun v => decide (v ∈ sortVideosByDate nf src)) =
        sortVideosByDate nf src := by
  have hF2 : List.Forall₂ (fun a b => List.Perm a b)
      ((videos_by_source.filter (fun l => !l.isEmpty)).map (sortVideosByDate nf))
      (videos_by_source.filter (fun l => !l.isEmpty)) :=
    List.forall₂_map_left_iff.mpr
      (List.forall₂_same.mpr (fun x _ => sortVideosByDate_perm nf x))
  have hperm : ((videos_by_source.filter (fun l => !l.isEmpty)).map
      (sortVideosByDate nf)).flatten.Perm videos_by_source.flatten := by
    have h1 := List.Perm.flatten_congr hF2
    rw [flatten_filter_nonempty] at h1
    exact h1
  have hInv : RRInv ((videos_by_source.filter (fun l => !l.isEmpty)).map
      (sortVideosByDate nf)) [] := by
    refine ⟨fun v hv => hgood v (hperm.subset hv), ?_, fun v _ i _ h => absurd h (List.not_mem_nil i)⟩
    · have := hperm.filterMap Video.video_id
      exact (this.nodup_iff).mpr hnodup
  obtain ⟨Δ, hout, hD, hF, hJ, hG⟩ :=
    roundRobinGo_spec shuffler hshuf 0
      ((videos_by_source.filter (fun l => !l.isEmpty)).map (sortVideosByDate nf))
      [] [] hInv
  rw [List.nil_append] at hout
  have houtfull : _build_round_robin_by_date shuffler videos_by_source nf = Δ := by
    rw [_build_round_robin_by_date]
    exact hout
  constructor
  · rw [houtfull]
    exact nodup_of_ids
      (fun v hv => hgood v (hperm.subset (hD v hv))) hJ
  · intro src hsrc hne
    have hmemS : sortVideosByDate nf src ∈
        (videos_by_source.filter (fun l => !l.isEmpty)).map (sortVideosByDate nf) := by
      apply List.mem_map_of_mem
      apply List.mem_filter.mpr
      refine ⟨hsrc, ?_⟩
      simp [List.isEmpty_iff, hne]
    obtain ⟨⟨j, hj⟩, hget⟩ := List.mem_iff_get.mp hmemS
    have hgd : ((videos_by_source.filter (fun l => !l.isEmpty)).map
        (sortVideosByDate nf)).getD j [] = sortVideosByDate nf src := by
      rw [List.getD_eq_getElem _ [] hj]
      exact hget
    have := hG j hj
    rw [hgd] at this
    rw [houtfull]
    exact this

theorem pair_sublist_of_mem {α : Type} {u v : α} {l : List α}
    (hl : l.Nodup) (hu : u ∈ l) (hv : v ∈ l) (hne : u ≠ v) :
    List.Sublist [u, v] l ∨ List.Sublist [v, u] l := by
  induction l with
  | nil => cases hu
  | cons a t ih =>
    obtain ⟨hat, htn⟩ := List.nodup_cons.mp hl
    rcases List.mem_cons.mp hu with rfl | hu2
    · have hvt : v ∈ t := by
        rcases List.mem_cons.mp hv with rfl | h
        · exact absurd rfl hne
        · exact h
      exact Or.inl (List.Sublist.cons₂ u (List.singleton_sublist.mpr hvt))
    · rcases List.mem_cons.mp hv with rfl | hv2
      · exact Or.inr (List.Sublist.cons₂ v (List.singleton_sublist.mpr hu2))
      · rcases ih htn hu2 hv2 with h | h
        · exact Or.inl (h.cons a)
        · exact Or.inr (h.cons a)

theorem indexOf_lt_of_pair {l : List Video} (hl : l.Nodup) {u v : Video}
    (h : List.Sublist [u, v] l) : l.indexOf u < l.indexOf v := by
  induction l with
  | nil => cases h
  | cons a t ih =>
    obtain ⟨hat, htn⟩ := List.nodup_cons.mp hl
    cases h with
    | cons _ h2 =>
      have hut : u ∈ t := h2.subset (by simp)
      have hvt : v ∈ t := h2.subset (by simp)
      rw [List.indexOf_cons_ne t (show a ≠ u from fun he => hat (he.symm ▸ hut)),
        List.indexOf_cons_ne t (show a ≠ v from fun he => hat (he.symm ▸ hvt))]
      exact Nat.succ_lt_succ (ih htn h2)
    | cons₂ _ h2 =>
      have hvt : v ∈ t := List.singleton_sublist.mp h2
      rw [List.indexOf_cons_self]
      rw [List.indexOf_cons_ne t (show u ≠ v from fun he => hat (he.symm ▸ hvt))]
      exact Nat.succ_pos _

/-- Identity shuffler: one legitimate outcome of `random.shuffle` (the
identity permutation). -/
def idShuffle : Nat → List Nat → List Nat := fun _ l => l

/-- Concrete video with unknown published-at. -/
def vidU : Video := ⟨some "u", "uu", "tu", "thu", "cu", none⟩

/-- Concrete video whose published-at parses to exactly `datetime.min`
(the string "0001-01-01T00:00:00", a valid ISO-8601 timestamp). -/
def vidMin : Video := ⟨some "m", "um", "tm", "thm", "cm", some 0⟩

/-- Concrete video with id "c" and timestamp 5. -/
def vidC : Video := ⟨some "c", "uc", "tc", "thc", "cc", some 5⟩

theorem src_nodup_of_global (nf : Bool) {videos_by_source : List (List Video)}
    {src : List Video} (hsrc : src ∈ videos_by_source)
    (hgood : ∀ v ∈ videos_by_source.flatten, ∃ i, v.video_id = some i ∧ i ≠ "")
    (hnodup : (idsOf videos_by_source.flatten).Nodup) :
    (sortVideosByDate nf src).Nodup := by
  have hsl := List.sublist_flatten_of_mem hsrc
  have hsrcids : (idsOf src).Nodup :=
    List.Nodup.sublist (hsl.filterMap _) hnodup
  have hsrcgood : ∀ w ∈ src, ∃ i, w.video_id = some i ∧ i ≠ "" :=
    fun w hw => hgood w (hsl.subset hw)
  exact ((sortVideosByDate_perm nf src).nodup_iff).mpr
    (nodup_of_ids hsrcgood hsrcids)

/-- C2 (amended): under both chronological directions, within one source an
unknown-date descriptor appears in the round-robin output after every
known-date descriptor of that source, provided the known timestamp does not
collide with the unknown-date sentinel (`datetime.min` under NEWEST,
`datetime.max` under OLDEST).  Stated under the spec's data model: non-empty
ids, globally distinct ids, and a shuffler that permutes its input. -/
theorem C2_unknown_date_after_dated_amended
    (shuffler : Nat → List Nat → List Nat)
    (hshuf : ∀ n l, (shuffler n l).Perm l)
    (videos_by_source : List (List Video)) (nf : Bool)
    (hgood : ∀ v ∈ videos_by_source.flatten, ∃ i, v.video_id = some i ∧ i ≠ "")
    (hnodup : (idsOf videos_by_source.flatten).Nodup)
    (src : List Video) (hsrc : src ∈ videos_by_source)
    (u v : Video) (hu : u ∈ src) (hv : v ∈ src)
    (hud : u.published_at = none) (t : Nat) (hvd : v.published_at = some t)
    (ht : if nf then 0 < t else t < datetimeMaxMicros) :
    u ∈ _build_round_robin_by_date shuffler videos_by_source nf ∧
    v ∈ _build_round_robin_by_date shuffler videos_by_source nf ∧
    (_build_round_robin_by_date shuffler videos_by_source nf).indexOf v <
      (_build_round_robin_by_date shuffler videos_by_source nf).indexOf u := by
  have hne : src ≠ [] := List.ne_nil_of_mem hu
  obtain ⟨hnodupOut, hfilter⟩ :=
    rr_sorted_source_spec shuffler hshuf videos_by_source nf hgood hnodup
  have hfe := hfilter src hsrc hne
  have husort : u ∈ sortVideosByDate nf src := by
    rw [sortVideosByDate]
    exact List.mem_mergeSort.mpr hu
  have hvsort : v ∈ sortVideosByDate nf src := by
    rw [sortVideosByDate]
    exact List.mem_mergeSort.mpr hv
  have huv : u ≠ v := by
    intro h
    rw [h, hvd] at hud
    cases hud
  have hsortnodup := src_nodup_of_global nf hsrc hgood hnodup
  have hvu : List.Sublist [v, u] (sortVideosByDate nf src) := by
    rcases pair_sublist_of_mem hsortnodup husort hvsort huv with h | h
    · exfalso
      have hrel := List.pairwise_pair.mp
        (List.Pairwise.sublist h (sortVideosByDate_pairwise nf src))
      cases nf
      · simp only [Bool.false_eq_true, if_false] at ht
        simp [dateLE, _sort_key_for_date, hud, hvd] at hrel
        omega
      · simp only [if_true] at ht
        simp [dateLE, _sort_key_for_date, hud, hvd] at hrel
        omega
    · exact h
  have hsub1 : List.Sublist [v, u]
      (List.filter (fun w => decide (w ∈ sortVideosByDate nf src))
        (_build_round_robin_by_date shuffler videos_by_source nf)) := by
    rw [hfe]
    exact hvu
  have hsubout : List.Sublist [v, u]
      (_build_round_robin_by_date shuffler videos_by_source nf) :=
    hsub1.trans (List.filter_sublist _)
  refine ⟨hsubout.subset (by simp), hsubout.subset (by simp),
    indexOf_lt_of_pair hnodupOut hsubout⟩

/-- Witness for the amended C2 at source list `[[vidA, vidB]]` under NEWEST:
`vidB` has no timestamp, `vidA` has timestamp 10 > 0. -/
theorem C2_unknown_date_after_dated_amended_witness :
    vidB ∈ _build_round_robin_by_date idShuffle [[vidA, vidB]] true ∧
    vidA ∈ _build_round_robin_by_date idShuffle [[vidA, vidB]] true ∧
    (_build_round_robin_by_date idShuffle [[vidA, vidB]] true).indexOf vidA <
      (_build_round_robin_by_date idShuffle [[vidA, vidB]] true).indexOf vidB :=
  C2_unknown_date_after_dated_amended idShuffle (fun _ l => List.Perm.refl l)
    [[vidA, vidB]] true
    (by
      intro v hv
      fin_cases hv
      · exact ⟨"a", rfl, by decide⟩
      · exact ⟨"b", rfl, by decide⟩)
    (by decide) [vidA, vidB] (by decide) vidB vidA (by decide) (by decide)
    rfl 10 rfl (by decide)

/-- C2 counterexample: one source whose first descriptor `vidU` has an
unknown timestamp and whose second descriptor `vidMin` is dated exactly
0001-01-01T00:00:00 (`datetime.min`, a parseable ISO-8601 timestamp).  Under
CHRONOLOGICAL_NEWEST the unknown-date sort key is also `datetime.min`, the
stable sort keeps the input order, and the output is `[vidU, vidMin]`: the
unknown-date descriptor appears before a known-date descriptor of the same
source, contradicting the claim.  The identity shuffler used is a legitimate
`random.shuffle` outcome. -/
theorem C2_counterexample :
    idShuffle 0 [0] = [0] ∧
    vidU.published_at = none ∧
    vidMin.published_at = some 0 ∧
    _build_round_robin_by_date idShuffle [[vidU, vidMin]] true =
      [vidU, vidMin] ∧
    (_build_round_robin_by_date idShuffle [[vidU, vidMin]] true).indexOf vidU <
      (_build_round_robin_by_date idShuffle [[vidU, vidMin]] true).indexOf vidMin := by
  have hsort : sortVideosByDate true [vidU, vidMin] = [vidU, vidMin] :=
    List.mergeSort_of_sorted (by decide)
  have hout : _build_round_robin_by_date idShuffle [[vidU, vidMin]] true =
      [vidU, vidMin] := by
    rw [_build_round_robin_by_date]
    simp only [List.filter, List.map]
    norm_num [hsort]
    simp [roundRobinGo, visitRound, popFresh, idShuffle, vidU, vidMin]
  refine ⟨rfl, rfl, rfl, hout, ?_⟩
  rw [hout]
  decide

/-- C3: per-source chronology is preserved by the round-robin ordering: for
two same-source descriptors with known timestamps, the one earlier in the
output is no older (NEWEST) resp. no newer (OLDEST) than the other.  Stated
under the spec's data model: non-empty ids, globally distinct ids, and a
shuffler that permutes its input. -/
theorem C3_per_source_chronology_preserved
    (shuffler : Nat → List Nat → List Nat)
    (hshuf : ∀ n l, (shuffler n l).Perm l)
    (videos_by_source : List (List Video)) (nf : Bool)
    (hgood : ∀ v ∈ videos_by_source.flatten, ∃ i, v.video_id = some i ∧ i ≠ "")
    (hnodup : (idsOf videos_by_source.flatten).Nodup)
    (src : List Video) (hsrc : src ∈ videos_by_source)
    (u v : Video) (hu : u ∈ src) (hv : v ∈ src)
    (tu tv : Nat) (hud : u.published_at = some tu) (hvd : v.published_at = some tv)
    (hpos : (_build_round_robin_by_date shuffler videos_by_source nf).indexOf u <
      (_build_round_robin_by_date shuffler videos_by_source nf).indexOf v) :
    (nf = true → tv ≤ tu) ∧ (nf = false → tu ≤ tv) := by
  have hne : src ≠ [] := List.ne_nil_of_mem hu
  obtain ⟨hnodupOut, hfilter⟩ :=
    rr_sorted_source_spec shuffler hshuf videos_by_source nf hgood hnodup
  have hfe := hfilter src hsrc hne
  have husort : u ∈ sortVideosByDate nf src := by
    rw [sortVideosByDate]
    exact List.mem_mergeSort.mpr hu
  have hvsort : v ∈ sortVideosByDate nf src := by
    rw [sortVideosByDate]
    exact List.mem_mergeSort.mpr hv
  have huv : u ≠ v := by
    intro h
    subst h
    exact absurd hpos (Nat.lt_irrefl _)
  have hsortnodup := src_nodup_of_global nf hsrc hgood hnodup
  rcases pair_sublist_of_mem hsortnodup husort hvsort huv with h | h
  · have hrel := List.pairwise_pair.mp
      (List.Pairwise.sublist h (sortVideosByDate_pairwise nf src))
    cases nf
    · simp [dateLE, _sort_key_for_date, hud, hvd] at hrel
      exact ⟨(fun hc => by cases hc), fun _ => hrel⟩
    · simp [dateLE, _sort_key_for_date, hud, hvd] at hrel
      exact ⟨fun _ => hrel, (fun hc => by cases hc)⟩
  · exfalso
    have hsub1 : List.Sublist [v, u]
        (List.filter (fun w => decide (w ∈ sortVideosByDate nf src))
          (_build_round_robin_by_date shuffler videos_by_source nf)) := by
      rw [hfe]
      exact h
    have hsubout : List.Sublist [v, u]
        (_build_round_robin_by_date shuffler videos_by_source nf) :=
      hsub1.trans (List.filter_sublist _)
    exact Nat.lt_asymm hpos (indexOf_lt_of_pair hnodupOut hsubout)

/-- Witness for C3 at source list `[[vidA, vidC]]` under NEWEST: `vidA`
(timestamp 10) precedes `vidC` (timestamp 5) in the output. -/
theorem C3_per_source_chronology_preserved_witness :
    (true = true → 5 ≤ 10) ∧ (true = false → 10 ≤ 5) :=
  C3_per_source_chronology_preserved idShuffle (fun _ l => List.Perm.refl l)
    [[vidA, vidC]] true
    (by
      intro v hv
      fin_cases hv
      · exact ⟨"a", rfl, by decide⟩
      · exact ⟨"c", rfl, by decide⟩)
    (by decide) [vidA, vidC] (by decide) vidA vidC (by decide) (by decide)
    10 5 rfl rfl
    (by
      have hsort : sortVideosByDate true [vidA, vidC] = [vidA, vidC] :=
        List.mergeSort_of_sorted (by decide)
      have hout : _build_round_robin_by_date idShuffle [[vidA, vidC]] true =
          [vidA, vidC] := by
        rw [_build_round_robin_by_date]
        simp only [List.filter, List.map]
        norm_num [hsort]
        simp [roundRobinGo, visitRound, popFresh, idShuffle, vidA, vidC]
      rw [hout]
      decide)

/-- A row of the `channels` table as the queue builder sees it.  The ORM
model (`models.py`) does not map the raw `play_order` column added by
`database._ensure_column`, so `getattr(channel, "play_order", "random")` reads
a plain attribute that may be missing or `None`: `play_order = none` models
both; `some s` models a present string value. -/
structure Channel where
  id : Nat
  name : String
  play_order : Option String
deriving DecidableEq, Repr

/-- A row of the `sources` table (`models.py`). -/
structure Source where
  id : Nat
  channel_id : Nat
  youtube_id : String
  source_type : String
  name : Option String
deriving DecidableEq, Repr

/-- A row of the `video_queue` table as read by `get_next_video` and targeted
by the insert loop of `rebuild_channel_queue`.  Storage-generated columns (the
`id` primary key, `added_at` default timestamp and the never-written
`duration`) are omitted: they are produced by the storage engine, not by the
code under test.  The `published_at` column exists on the *table* (added by
`database._ensure_column`) but is not mapped on the `VideoQueue` ORM class in
`models.py` — the root of `publishedAtTypeError` below. -/
structure QueueEntry where
  channel_id : Nat
  video_id : String
  video_url : String
  title : String
  thumbnail_url : String
  channel_name : String
  published_at : Option Nat
  position : Nat
  played : Bool
deriving DecidableEq, Repr

/-- The relational store: the three tables the queue builder touches. -/
structure DB where
  channels : List Channel
  sources : List Source
  queue : List QueueEntry
deriving Repr

/-- The per-source fetch loop of `rebuild_channel_queue` (lines 40-55): a
source of unknown type is skipped (`continue`); `fetch` models
`youtube_service.get_channel_videos` / `get_playlist_videos`, returning
`Except.error ()` when the call raises (the `except` branch logs and skips);
an empty result is not appended (`if videos:`). -/
def collect_videos (fetch : Source → Except Unit (List Video))
    (sources : List Source) : List (List Video) :=
  sources.filterMap (fun s =>
    if s.source_type = "channel" ∨ s.source_type = "playlist" then
      match fetch s with
      | .error _ => none
      | .ok videos => if videos.isEmpty then none else some videos
    else none)

/-- Lines 61-63 of `rebuild_channel_queue`:
`getattr(channel, "play_order", "random") or "random"` followed by the
membership check against the three recognized values. -/
def resolve_play_order (channel : Channel) : String :=
  let raw := match channel.play_order with
    | none => "random"
    | some s => s
  let po := if raw = "" then "random" else raw
  if po = "random" ∨ po = "chronological_newest" ∨ po = "chronological_oldest"
  then po else "random"

/-- The exception raised by the insert loop of `rebuild_channel_queue`
(queue_builder.py lines 82-94): `models.py` maps no `published_at` attribute
on the `VideoQueue` class — `database._ensure_column` only `ALTER TABLE`s the
`video_queue` table, it never touches the ORM class — so SQLAlchemy's
declarative constructor raises `TypeError` for the unmapped `published_at=`
keyword on the very first row, before any `add` or `commit`. -/
def publishedAtTypeError : String :=
  "TypeError: 'published_at' is an invalid keyword argument for VideoQueue"

/-- Embeds `QueueBuilder.rebuild_channel_queue`.  `fetch` is the external
provider; `shuffle` is `random.shuffle` on the flattened collection (RANDOM
policy); `shuffler` drives the per-round shuffles of the chronological round
robin.  Returns the (committed) `video_queue` table contents together with
the count, or an error for a raised exception: the `ValueError` when the
channel does not exist, and the `TypeError` of the insert loop
(`publishedAtTypeError`) whenever the ordered list is non-empty — the
`VideoQueue(..., published_at=..., ...)` constructor call raises because the
class maps no such attribute.  On that path the in-session bulk delete of the
channel's rows (line 79) is never committed: every caller's session ends in
`close()` without `commit()` once the exception is raised, so the committed
queue table is unchanged — the error result carries no table state. -/
def rebuild_channel_queue (fetch : Source → Except Unit (List Video))
    (shuffle : List Video → List Video) (shuffler : Nat → List Nat → List Nat)
    (db : DB) (channel_id : Nat) : Except String (List QueueEntry × Nat) :=
  match db.channels.find? (fun c => c.id = channel_id) with
  | none => .error ("Channel " ++ toString channel_id ++ " not found")
  | some channel =>
    let sources := db.sources.filter (fun s => s.channel_id = channel_id)
    if sources.isEmpty then .ok (db.queue, 0)
    else
      let videos_by_source := collect_videos fetch sources
      if videos_by_source.isEmpty then .ok (db.queue, 0)
      else
        let play_order := resolve_play_order channel
        let ordered_videos :=
          if play_order = "random" then
            _dedupe_preserve_order (shuffle videos_by_source.flatten)
          else
            _build_round_robin_by_date shuffler videos_by_source
              (play_order = "chronological_newest")
        if ordered_videos.isEmpty then .ok (db.queue, 0)
        else .error publishedAtTypeError

/-- Embeds `QueueBuilder.rebuild_all_queues`: iterate the channels in order,
rebuild each, catch any exception and record 0 for that channel, threading the
queue table through.  Returns the final queue table and the result mapping as
an association list in iteration order. -/
def rebuild_all_queues (fetch : Source → Except Unit (List Video))
    (shuffle : List Video → List Video) (shuffler : Nat → List Nat → List Nat)
    (db : DB) : DB × List (Nat × Nat) :=
  db.channels.foldl
    (fun acc channel =>
      match rebuild_channel_queue fetch shuffle shuffler acc.1 channel.id with
      | .ok (q, n) => ({ acc.1 with queue := q }, acc.2 ++ [(channel.id, n)])
      | .error _ => (acc.1, acc.2 ++ [(channel.id, 0)]))
    (db, [])

/-- Embeds `QueueBuilder.get_next_video`: the unplayed entry of the channel
with the smallest position (the SQL `ORDER BY position ... first()`, modelled
as a stable sort by position followed by `head?`). -/
def get_next_video (queue : List QueueEntry) (channel_id : Nat) :
    Option QueueEntry :=
  ((queue.filter (fun e => e.channel_id = channel_id ∧ e.played = false)).mergeSort
    (fun a b => a.position ≤ b.position)).head?

/-- Errors of the `/api/player/play/` endpoint (`player.py`): the two 404
variants and the propagation of an exception raised inside the rebuild. -/
inductive PlayerError where
  | channelNotFound
  | noVideosAddSources
  | noVideosInQueue
  | internal (msg : String)
deriving DecidableEq, Repr

/-- Embeds `player.get_next_video` (the `/api/player/play/{channel_id}`
endpoint): verify the channel, read the next unplayed entry, and on
exhaustion rebuild once — failing with `noVideosAddSources` when the rebuild
returns 0, otherwise re-reading against the fresh queue.  Returns the served
entry together with the (possibly replaced) queue table. -/
def player_get_next_video (fetch : Source → Except Unit (List Video))
    (shuffle : List Video → List Video) (shuffler : Nat → List Nat → List Nat)
    (db : DB) (channel_id : Nat) :
    Except PlayerError (QueueEntry × List QueueEntry) :=
  match db.channels.find? (fun c => c.id = channel_id) with
  | none => .error .channelNotFound
  | some _ =>
    match get_next_video db.queue channel_id with
    | some video => .ok (video, db.queue)
    | none =>
      match rebuild_channel_queue fetch shuffle shuffler db channel_id with
      | .error e => .error (.internal e)
      | .ok (q, count) =>
        if count = 0 then .error .noVideosAddSources
        else
          match get_next_video q channel_id with
          | some video => .ok (video, q)
          | none => .error .noVideosInQueue

theorem visitRound_ids :
    ∀ (order : List Nat) (srcs : List (List Video)) (seen : List String)
      (acc : List Video),
      ∃ δ : List Video,
        (visitRound order srcs seen acc).2.2.1 = acc ++ δ ∧
        (∀ v ∈ δ, ∃ i, v.video_id = some i ∧ i ≠ "") ∧
        (∀ v ∈ δ, ∀ i, v.video_id = some i →
          i ∉ seen ∧ i ∈ (visitRound order srcs seen acc).2.1) ∧
        (idsOf δ).Nodup ∧
        (∀ s ∈ seen, s ∈ (visitRound order srcs seen acc).2.1) := by
  intro order
  induction order with
  | nil =>
    intro srcs seen acc
    exact ⟨[], by simp [visitRound], by simp, by simp, by simp [idsOf],
      fun s hs => by simpa only [visitRound] using hs⟩
  | cons idx rest ih =>
    intro srcs seen acc
    cases hp : popFresh seen (srcs.getD idx []) with
    | none =>
      have hstep : visitRound (idx :: rest) srcs seen acc =
          visitRound rest (srcs.set idx []) seen acc := by
        simp only [visitRound, hp]
      rw [hstep]
      exact ih (srcs.set idx []) seen acc
    | some t =>
      obtain ⟨i, v, rem⟩ := t
      obtain ⟨hvid, hine, hins⟩ := popFresh_some hp
      obtain ⟨δ', hA, hGd, hFr, hJ, hK⟩ :=
        ih (srcs.set idx rem) (i :: seen) (acc ++ [v])
      have hstep : visitRound (idx :: rest) srcs seen acc =
          ((visitRound rest (srcs.set idx rem) (i :: seen) (acc ++ [v])).1,
           (visitRound rest (srcs.set idx rem) (i :: seen) (acc ++ [v])).2.1,
           (visitRound rest (srcs.set idx rem) (i :: seen) (acc ++ [v])).2.2.1,
           true) := by
        simp only [visitRound, hp]
      rw [hstep]
      dsimp only
      refine ⟨v :: δ', ?_, ?_, ?_, ?_, ?_⟩
      · rw [hA]
        simp
      · intro w hw
        rcases List.mem_cons.mp hw with rfl | hw
        · exact ⟨i, hvid, hine⟩
        · exact hGd w hw
      · intro w hw iw hiw
        rcases List.mem_cons.mp hw with rfl | hw
        · cases hvid ▸ hiw
          exact ⟨hins, hK i (List.mem_cons_self i seen)⟩
        · obtain ⟨h1, h2⟩ := hFr w hw iw hiw
          exact ⟨fun hmem => h1 (List.mem_cons_of_mem i hmem), h2⟩
      · have hid : idsOf (v :: δ') = i :: idsOf δ' := by
          simp [idsOf, List.filterMap_cons, hvid]
        rw [hid]
        refine List.Nodup.cons ?_ hJ
        intro hmem
        obtain ⟨w, hw, hwid⟩ := List.mem_filterMap.mp hmem
        exact (hFr w hw i hwid).1 (List.mem_cons_self i seen)
      · intro s hs
        exact hK s (List.mem_cons_of_mem i hs)

theorem roundRobinGo_ids (shuffler : Nat → List Nat → List Nat) :
    ∀ (round : Nat) (srcs : List (List Video)) (seen : List String)
      (acc : List Video),
      ∃ Δ : List Video,
        roundRobinGo shuffler round srcs seen acc = acc ++ Δ ∧
        (∀ v ∈ Δ, ∃ i, v.video_id = some i ∧ i ≠ "") ∧
        (∀ v ∈ Δ, ∀ i, v.video_id = some i → i ∉ seen) ∧
        (idsOf Δ).Nodup := by
  intro round srcs seen acc
  induction round, srcs, seen, acc using roundRobinGo.induct shuffler with
  | case1 round srcs seen acc active hact =>
    have hout : roundRobinGo shuffler round srcs seen acc = acc := by
      rw [roundRobinGo]
      split
      · rfl
      · rename_i hneg; exact absurd hact hneg
    exact ⟨[], by simpa using hout, by simp, by simp, by simp [idsOf]⟩
  | case2 round srcs seen acc active hact r hr ih =>
    obtain ⟨δ, hA, hGd, hFr, hJ, hK⟩ :=
      visitRound_ids (shuffler round active) srcs seen acc
    obtain ⟨Δ', hout', hGd', hFr', hJ'⟩ := ih
    have hout : roundRobinGo shuffler round srcs seen acc =
        roundRobinGo shuffler (round + 1) r.1 r.2.1 r.2.2.1 := by
      rw [roundRobinGo]
      split
      · rename_i hpos; exact absurd hpos hact
      · dsimp only
        split
        · rfl
        · rename_i hc; exact absurd hr hc
    refine ⟨δ ++ Δ', ?_, ?_, ?_, ?_⟩
    · rw [hout, hout', hA, List.append_assoc]
    · intro w hw
      rcases List.mem_append.mp hw with hw | hw
      · exact hGd w hw
      · exact hGd' w hw
    · intro w hw iw hiw hmem
      rcases List.mem_append.mp hw with hw | hw
      · exact (hFr w hw iw hiw).1 hmem
      · exact hFr' w hw iw hiw (hK iw hmem)
    · rw [idsOf_append, List.nodup_append]
      refine ⟨hJ, hJ', ?_⟩
      intro iw h1 h2
      obtain ⟨w, hw, hwid⟩ := List.mem_filterMap.mp h1
      obtain ⟨w', hw', hwid'⟩ := List.mem_filterMap.mp h2
      exact hFr' w' hw' iw hwid' (hFr w hw iw hwid).2
  | case3 round srcs seen acc active hact r hr =>
    obtain ⟨δ, hA, hGd, hFr, hJ, hK⟩ :=
      visitRound_ids (shuffler round active) srcs seen acc
    have hout : roundRobinGo shuffler round srcs seen acc = r.2.2.1 := by
      rw [roundRobinGo]
      split
      · rename_i hpos; exact absurd hpos hact
      · dsimp only
        split
        · rename_i hc; exact absurd hc hr
        · rfl
    refine ⟨δ, by rw [hout]; exact hA, hGd,
      fun w hw iw hiw => (hFr w hw iw hiw).1, hJ⟩

/-- Whatever ordering policy `rebuild_channel_queue` uses, the ordered list it
persists consists of descriptors with present non-empty ids, pairwise
distinct. -/
theorem ordered_videos_ids (shuffle : List Video → List Video)
    (shuffler : Nat → List Nat → List Nat) (videos_by_source : List (List Video))
    (po : String) :
    (∀ v ∈ (if po = "random" then
        _dedupe_preserve_order (shuffle videos_by_source.flatten)
      else
        _build_round_robin_by_date shuffler videos_by_source
          (po = "chronological_newest")),
      ∃ i, v.video_id = some i ∧ i ≠ "") ∧
    (idsOf (if po = "random" then
        _dedupe_preserve_order (shuffle videos_by_source.flatten)
      else
        _build_round_robin_by_date shuffler videos_by_source
          (po = "chronological_newest"))).Nodup := by
  by_cases hpo : po = "random"
  · rw [if_pos hpo]
    constructor
    · intro v hv
      obtain ⟨i, h1, h2, -⟩ := dedupeGo_sig [] _ v hv
      exact ⟨i, h1, h2⟩
    · exact idsOf_dedupeGo_nodup [] _
  · rw [if_neg hpo]
    obtain ⟨Δ, hout, hGd, -, hJ⟩ :=
      roundRobinGo_ids shuffler 0
        ((videos_by_source.filter (fun l => !l.isEmpty)).map
          (sortVideosByDate (po = "chronological_newest"))) [] []
    rw [List.nil_append] at hout
    have he : _build_round_robin_by_date shuffler videos_by_source
        (po = "chronological_newest") = Δ := by
      rw [_build_round_robin_by_date]
      exact hout
    rw [he]
    exact ⟨hGd, hJ⟩

/-- Concrete database: one channel (RANDOM policy), one playlist source,
empty queue. -/
def dbW : DB :=
  ⟨[⟨1, "st", some "random"⟩], [⟨7, 1, "yt", "playlist", none⟩], []⟩

/-- C4: refuted as stated — no rebuild can reach a successful insert.  At a
station with one playlist source whose provider returns two videos, the
rebuild reaches the insert loop and raises the `TypeError` of the unmapped
`published_at` keyword (queue_builder.py line 84, models.py `VideoQueue`):
it never persists entries at positions `0..n-1` nor returns a count `n > 0`. -/
theorem C4_insert_always_raises :
    rebuild_channel_queue (fun _ => .ok [vidA, vidB]) id idShuffle dbW 1 =
      .error publishedAtTypeError := by rfl

/-- C5: when every source of the station fails, has an unknown type, or
returns no descriptors (including the no-sources case), the rebuild returns
count 0 and the queue table is returned untouched — no error is raised. -/
theorem C5_empty_aggregation_noop (fetch : Source → Except Unit (List Video))
    (shuffle : List Video → List Video) (shuffler : Nat → List Nat → List Nat)
    (db : DB) (cid : Nat) (ch : Channel)
    (hch : db.channels.find? (fun c => c.id = cid) = some ch)
    (hfail : ∀ s ∈ db.sources, s.channel_id = cid →
      (s.source_type ≠ "channel" ∧ s.source_type ≠ "playlist") ∨
      fetch s = .error () ∨ fetch s = .ok []) :
    rebuild_channel_queue fetch shuffle shuffler db cid = .ok (db.queue, 0) := by
  have hcol : collect_videos fetch
      (db.sources.filter (fun s => s.channel_id = cid)) = [] := by
    rw [collect_videos, List.filterMap_eq_nil_iff]
    intro s hs
    have hmem := List.mem_filter.mp hs
    have hcid : s.channel_id = cid := by simpa using hmem.2
    rcases hfail s hmem.1 hcid with htype | herr | hemp
    · exact if_neg (fun hor => hor.elim htype.1 htype.2)
    · by_cases htp : s.source_type = "channel" ∨ s.source_type = "playlist"
      · rw [if_pos htp, herr]
      · rw [if_neg htp]
    · by_cases htp : s.source_type = "channel" ∨ s.source_type = "playlist"
      · rw [if_pos htp, hemp]
        rfl
      · rw [if_neg htp]
  rw [rebuild_channel_queue, hch]
  dsimp only
  split
  · rfl
  · rw [hcol]
    rfl

/-- Concrete database with one channel, one source and a non-empty queue. -/
def dbF : DB :=
  ⟨[⟨1, "st", some "random"⟩], [⟨7, 1, "yt", "playlist", none⟩],
   [⟨1, "z", "uz", "tz", "thz", "cz", none, 0, true⟩]⟩

/-- Witness for C5: every provider call fails, the prior (fully played) queue
generation of `dbF` survives untouched and the count is 0. -/
theorem C5_empty_aggregation_noop_witness :
    rebuild_channel_queue (fun _ => .error ()) id idShuffle dbF 1 =
      .ok (dbF.queue, 0) :=
  C5_empty_aggregation_noop (fun _ => .error ()) id idShuffle dbF 1
    ⟨1, "st", some "random"⟩ (by rfl)
    (fun s _ _ => Or.inr (Or.inl rfl))

theorem filterMap_filter_ne {α β : Type} [DecidableEq α] (f : α → Option β)
    (a : α) (hf : f a = none) :
    ∀ (l : List α), (l.filter (fun x => x ≠ a)).filterMap f = l.filterMap f := by
  intro l
  induction l with
  | nil => rfl
  | cons b t ih =>
    rw [List.filter_cons]
    by_cases hb : b = a
    · subst hb
      rw [if_neg (by simp)]
      rw [ih, List.filterMap_cons, hf]
    · rw [if_pos (by simpa using hb)]
      rw [List.filterMap_cons, List.filterMap_cons, ih]

theorem filter_swap {α : Type} (p q : α → Bool) (l : List α) :
    (l.filter p).filter q = (l.filter q).filter p := by
  induction l with
  | nil => rfl
  | cons a t ih =>
    by_cases hp : p a <;> by_cases hq : q a <;>
      simp [List.filter_cons, hp, hq, ih]

/-- C7: a provider failure on one source is absorbed in the per-source fetch
loop — the rebuild's whole outcome is identical to rebuilding the database
with the failing source removed, so the failure only skips that source and
never itself surfaces as an exception: in particular any rebuild that
completes with a count without the failing source completes with the same
count in its presence. -/
theorem C7_provider_failure_isolated (fetch : Source → Except Unit (List Video))
    (shuffle : List Video → List Video) (shuffler : Nat → List Nat → List Nat)
    (db : DB) (cid : Nat) (ch : Channel) (s₀ : Source)
    (hch : db.channels.find? (fun c => c.id = cid) = some ch)
    (hfail : fetch s₀ = .error ()) :
    rebuild_channel_queue fetch shuffle shuffler db cid =
      rebuild_channel_queue fetch shuffle shuffler
        ⟨db.channels, db.sources.filter (fun s => s ≠ s₀), db.queue⟩ cid ∧
    ∀ r, rebuild_channel_queue fetch shuffle shuffler
        ⟨db.channels, db.sources.filter (fun s => s ≠ s₀), db.queue⟩ cid =
        .ok r →
      rebuild_channel_queue fetch shuffle shuffler db cid = .ok r := by
  suffices hmain : rebuild_channel_queue fetch shuffle shuffler db cid =
      rebuild_channel_queue fetch shuffle shuffler
        ⟨db.channels, db.sources.filter (fun s => s ≠ s₀), db.queue⟩ cid by
    exact ⟨hmain, fun r hr => hmain.trans hr⟩
  have hF : (fun s => if s.source_type = "channel" ∨ s.source_type = "playlist"
      then match fetch s with
        | .error _ => none
        | .ok videos => if videos.isEmpty then none else some videos
      else none) s₀ = none := by
    dsimp only
    by_cases htp : s₀.source_type = "channel" ∨ s₀.source_type = "playlist"
    · rw [if_pos htp, hfail]
    · rw [if_neg htp]
  rw [rebuild_channel_queue, rebuild_channel_queue]
  dsimp only
  rw [hch]
  dsimp only
  rw [filter_swap (fun s => decide ¬(s = s₀))
    (fun s => decide (s.channel_id = cid))]
  have hcol : collect_videos fetch
      ((db.sources.filter (fun s => s.channel_id = cid)).filter
        (fun s => s ≠ s₀)) =
      collect_videos fetch (db.sources.filter (fun s => s.channel_id = cid)) := by
    rw [collect_videos, collect_videos]
    exact filterMap_filter_ne _ s₀ hF _
  rw [hcol]
  by_cases h1 : (db.sources.filter (fun s => s.channel_id = cid)).isEmpty
  · have h2 : ((db.sources.filter (fun s => s.channel_id = cid)).filter
        (fun s => s ≠ s₀)).isEmpty := by
      rw [List.isEmpty_iff] at h1 ⊢
      rw [h1]
      rfl
    rw [if_pos h1, if_pos h2]
  · by_cases h2 : ((db.sources.filter (fun s => s.channel_id = cid)).filter
        (fun s => s ≠ s₀)).isEmpty
    · rw [if_neg h1, if_pos h2]
      have hcol0 : collect_videos fetch
          (db.sources.filter (fun s => s.channel_id = cid)) = [] := by
        rw [collect_videos, List.filterMap_eq_nil_iff]
        intro s hs
        have hss : s = s₀ := by
          by_contra hne
          have hmem : s ∈ (db.sources.filter
              (fun s => s.channel_id = cid)).filter (fun s => s ≠ s₀) :=
            List.mem_filter.mpr ⟨hs, by simpa using hne⟩
          rw [List.isEmpty_iff.mp h2] at hmem
          cases hmem
        rw [hss]
        exact hF
      rw [hcol0]
      rfl
    · rw [if_neg h1, if_neg h2]

/-- Concrete database with one channel and two sources; source id 8 will
fail. -/
def dbG : DB :=
  ⟨[⟨1, "st", some "random"⟩],
   [⟨7, 1, "yt", "playlist", none⟩, ⟨8, 1, "y2", "playlist", none⟩], []⟩

/-- Provider for the C7 witness: fails on source id 8, succeeds elsewhere. -/
def fetchG : Source → Except Unit (List Video) :=
  fun s => if s.id = 8 then .error () else .ok [vidA]

/-- Witness for C7: source id 8 of `dbG` fails; the rebuild's outcome equals
the rebuild without that source, and a completing source-removed rebuild
transfers its result. -/
theorem C7_provider_failure_isolated_witness :
    rebuild_channel_queue fetchG id idShuffle dbG 1 =
      rebuild_channel_queue fetchG id idShuffle
        ⟨dbG.channels, dbG.sources.filter
          (fun s => s ≠ ⟨8, 1, "y2", "playlist", none⟩), dbG.queue⟩ 1 ∧
    ∀ r, rebuild_channel_queue fetchG id idShuffle
        ⟨dbG.channels, dbG.sources.filter
          (fun s => s ≠ ⟨8, 1, "y2", "playlist", none⟩), dbG.queue⟩ 1 =
        .ok r →
      rebuild_channel_queue fetchG id idShuffle dbG 1 = .ok r :=
  C7_provider_failure_isolated fetchG id idShuffle dbG 1
    ⟨1, "st", some "random"⟩ ⟨8, 1, "y2", "playlist", none⟩ (by rfl) (by rfl)

/-- C6: refuted as stated — the positive-count arm of the endpoint's rebuild
is unreachable.  On `dbW` (channel present, queue empty, one playlist source
whose provider returns two videos) the endpoint's single rebuild call raises
the `TypeError` of the unmapped `published_at` keyword; `player.get_next_video`
has no handler around the call (player.py line 54), so the request fails with
an internal error and no video of a fresh generation is ever served. -/
theorem C6_exhaustion_rebuild_raises :
    player_get_next_video (fun _ => .ok [vidA, vidB]) id idShuffle dbW 1 =
      .error (.internal publishedAtTypeError) := by
  have hempty : get_next_video dbW.queue 1 = none := by
    simp [get_next_video, dbW]
  rw [player_get_next_video]
  rw [show dbW.channels.find? (fun c => c.id = 1) =
    some ⟨1, "st", some "random"⟩ from rfl]
  dsimp only
  rw [hempty]
  dsimp only
  rw [show rebuild_channel_queue (fun _ => .ok [vidA, vidB]) id idShuffle dbW 1 =
    .error publishedAtTypeError from rfl]

/-- C8: `rebuild_all_queues` produces one result entry per channel, in
iteration order — zero counts and caught failures (recorded as 0) included —
so no channel's outcome can abort or omit another's. -/
theorem C8_rebuild_all_stations_complete (fetch : Source → Except Unit (List Video))
    (shuffle : List Video → List Video) (shuffler : Nat → List Nat → List Nat)
    (db : DB) :
    ((rebuild_all_queues fetch shuffle shuffler db).2.map Prod.fst) =
      db.channels.map Channel.id ∧
    (rebuild_all_queues fetch shuffle shuffler db).2.length =
      db.channels.length ∧
    ∀ ch ∈ db.channels, ∃ cnt,
      (ch.id, cnt) ∈ (rebuild_all_queues fetch shuffle shuffler db).2 := by
  have hgo : ∀ (chs : List Channel) (d : DB) (acc : List (Nat × Nat)),
      ((chs.foldl (fun acc channel =>
        match rebuild_channel_queue fetch shuffle shuffler acc.1 channel.id with
        | .ok (q, n) => ({ acc.1 with queue := q }, acc.2 ++ [(channel.id, n)])
        | .error _ => (acc.1, acc.2 ++ [(channel.id, 0)])) (d, acc)).2).map Prod.fst =
      acc.map Prod.fst ++ chs.map Channel.id := by
    intro chs
    induction chs with
    | nil => intro d acc; simp
    | cons c t ih =>
      intro d acc
      rw [List.foldl_cons]
      cases hreb : rebuild_channel_queue fetch shuffle shuffler d c.id with
      | ok p =>
        obtain ⟨q2, n2⟩ := p
        dsimp only
        rw [ih]
        simp
      | error e =>
        dsimp only
        rw [ih]
        simp
  have hmain : ((rebuild_all_queues fetch shuffle shuffler db).2).map Prod.fst =
      db.channels.map Channel.id := by
    rw [rebuild_all_queues, hgo]
    rfl
  refine ⟨hmain, ?_, ?_⟩
  · have := congrArg List.length hmain
    simpa using this
  · intro ch hch
    have hid : ch.id ∈ ((rebuild_all_queues fetch shuffle shuffler db).2).map
        Prod.fst := by
      rw [hmain]
      exact List.mem_map_of_mem Channel.id hch
    obtain ⟨p, hp, hpe⟩ := List.mem_map.mp hid
    exact ⟨p.2, by rw [← hpe]; exact hp⟩

theorem find?_map_channels (l : List Channel) (cid : Nat) (f : Channel → Channel)
    (hf : ∀ c, (f c).id = c.id) (ch : Channel)
    (h : l.find? (fun c => c.id = cid) = some ch) :
    (l.map f).find? (fun c => c.id = cid) = some (f ch) := by
  induction l with
  | nil => cases h
  | cons a t ih =>
    rw [List.map_cons]
    by_cases ha : a.id = cid
    · rw [List.find?_cons_of_pos _ (by simpa using ha)] at h
      rw [List.find?_cons_of_pos _ (by simp [hf a, ha])]
      cases h
      rfl
    · rw [List.find?_cons_of_neg _ (by simpa using ha)] at h
      rw [List.find?_cons_of_neg _ (by simp [hf a, ha])]
      exact ih h

/-- C10: an invalid `play_order` never itself fails the rebuild — a missing,
null, empty or unrecognized value silently resolves to RANDOM, and the
rebuild's whole outcome is identical to rebuilding with the policy set to
"random": the invalid value introduces no error of its own. -/
theorem C10_invalid_play_order_falls_back_random
    (fetch : Source → Except Unit (List Video))
    (shuffle : List Video → List Video) (shuffler : Nat → List Nat → List Nat)
    (db : DB) (cid : Nat) (ch : Channel)
    (hch : db.channels.find? (fun c => c.id = cid) = some ch)
    (hbad : ∀ s, ch.play_order = some s →
      s ≠ "random" ∧ s ≠ "chronological_newest" ∧ s ≠ "chronological_oldest") :
    resolve_play_order ch = "random" ∧
    rebuild_channel_queue fetch shuffle shuffler db cid =
      rebuild_channel_queue fetch shuffle shuffler
        ⟨db.channels.map (fun c => if c.id = cid then
          { c with play_order := some "random" } else c), db.sources, db.queue⟩
        cid := by
  have hres : resolve_play_order ch = "random" := by
    rw [resolve_play_order]
    cases hpo : ch.play_order with
    | none => rfl
    | some s =>
      obtain ⟨h1, h2, h3⟩ := hbad s hpo
      dsimp only
      by_cases hs : s = ""
      · rw [if_pos hs]
        rfl
      · rw [if_neg hs]
        rw [if_neg (fun hor => hor.elim h1 (fun hor2 => hor2.elim h2 h3))]
  refine ⟨hres, ?_⟩
  have hfind2 : (db.channels.map (fun c => if c.id = cid then
      { c with play_order := some "random" } else c)).find?
      (fun c => c.id = cid) = some { ch with play_order := some "random" } := by
    have hchid : ch.id = cid := by
      have := List.find?_some hch
      simpa using this
    have := find?_map_channels db.channels cid
      (fun c => if c.id = cid then { c with play_order := some "random" } else c)
      (fun c => by by_cases hc : c.id = cid <;> simp [hc]) ch hch
    rw [this]
    dsimp only
    rw [if_pos hchid]
  have hres2 : resolve_play_order { ch with play_order := some "random" } =
      "random" := rfl
  rw [rebuild_channel_queue, rebuild_channel_queue]
  dsimp only
  rw [hch, hfind2]
  dsimp only
  rw [hres, hres2]

/-- Concrete database whose channel has the unrecognized policy "shuffle". -/
def dbB : DB :=
  ⟨[⟨1, "st", some "shuffle"⟩], [⟨7, 1, "yt", "playlist", none⟩], []⟩

/-- Witness for C10 on `dbB`: the invalid policy "shuffle" resolves to
RANDOM and the rebuild's outcome equals the policy-"random" rebuild's. -/
theorem C10_invalid_play_order_falls_back_random_witness :
    resolve_play_order ⟨1, "st", some "shuffle"⟩ = "random" ∧
    rebuild_channel_queue (fun _ => .ok [vidA, vidB]) id idShuffle dbB 1 =
      rebuild_channel_queue (fun _ => .ok [vidA, vidB]) id idShuffle
        ⟨dbB.channels.map (fun c => if c.id = 1 then
          { c with play_order := some "random" } else c), dbB.sources,
          dbB.queue⟩ 1 :=
  C10_invalid_play_order_falls_back_random (fun _ => .ok [vidA, vidB]) id
    idShuffle dbB 1 ⟨1, "st", some "shuffle"⟩ (by rfl)
    (by
      intro s hs
      cases hs
      exact ⟨by decide, by decide, by decide⟩)

end OgMedia
